import Mathlib

/-!
Verification of the chunking/synthesis pipeline of a small text-to-speech app
(src/tts_app.py).  Text is modelled as `List Char` (Python `len` counts code
points, matching `List.length`), audio byte buffers as `List Nat`.  The
Streamlit UI, the network and file I/O are abstracted at their boundaries:
remote calls become oracle functions passed in as parameters.
-/

set_option autoImplicit false

/-- Whitespace as used by Python str.split, restricted to the ASCII
whitespace characters (space, tab, newline, carriage return, vertical tab,
form feed). -/
def pyIsSpace (c : Char) : Bool :=
  c == ' ' || c == '\t' || c == '\n' || c == '\r' || c == '\x0B' || c == '\x0C'

/-- Python text.split() with no separator: maximal runs of non-whitespace
characters, with empty tokens discarded. -/
def splitWS : List Char → List (List Char)
  | [] => []
  | [c] => if pyIsSpace c then [] else [[c]]
  | c :: d :: cs =>
    if pyIsSpace c then splitWS (d :: cs)
    else if pyIsSpace d then [c] :: splitWS cs
    else
      match splitWS (d :: cs) with
      | [] => [[c]]
      | t :: ts => (c :: t) :: ts

/-- Python " ".join applied to a list of strings. -/
def joinSpace : List (List Char) → List Char
  | [] => []
  | [t] => t
  | t :: u :: l => t ++ ' ' :: joinSpace (u :: l)

/-- The loop of chunk_text (src/tts_app.py lines 31-44): greedy accumulation
of tokens into a space-joined buffer.  `parts` are the remaining tokens,
`buf` the in-progress chunk's tokens and `curLen` the running length
variable of the Python code. -/
def chunkAux (maxLen : Nat) : List (List Char) → List (List Char) → Nat → List (List Char)
  | [], buf, _ => if buf.isEmpty then [] else [joinSpace buf]
  | part :: rest, buf, curLen =>
    let addLen := part.length + (if buf.isEmpty then 0 else 1)
    if maxLen < curLen + addLen then
      if buf.isEmpty then
        chunkAux maxLen rest [part] part.length
      else
        joinSpace buf :: chunkAux maxLen rest [part] part.length
    else
      chunkAux maxLen rest (buf ++ [part]) (curLen + addLen)

/-- chunk_text (src/tts_app.py lines 29-44): split text into roughly
maxLen-sized chunks on whitespace. -/
def chunk_text (text : List Char) (maxLen : Nat) : List (List Char) :=
  chunkAux maxLen (splitWS text) [] 0

/-- Default chunk size MAX_CHARS_PER_CHUNK (src/tts_app.py line 19). -/
def MAX_CHARS_PER_CHUNK : Nat := 4000

/-- A token list contains no whitespace character. -/
def noSpace (l : List Char) : Prop := ∀ c ∈ l, pyIsSpace c = false

/-- synthesize_tts (src/tts_app.py lines 73-78): sequential fold over the
chunks, appending the bytes returned by the per-chunk primitive to an
accumulating buffer (the BytesIO object of the Python code).  The remote
per-chunk call is abstracted as the oracle `ttsOnce`. -/
def synthesize_tts (ttsOnce : List Char → List Nat) (chunks : List (List Char)) : List Nat :=
  chunks.foldl (fun out c => out ++ ttsOnce c) []

/-- Instrumented run of the synthesize_tts loop: alongside the byte buffer it
records the list of inputs passed to the per-chunk primitive, in call
order, so that call count and call order are observable. -/
def synthTrace (ttsOnce : List Char → List Nat) (chunks : List (List Char)) :
    List (List Char) × List Nat :=
  chunks.foldl (fun acc c => (acc.1 ++ [c], acc.2 ++ ttsOnce c)) ([], [])

/-- The two spellings of the output-encoding parameter accepted by different
SDK versions (src/tts_app.py lines 60 and 62). -/
inductive ParamName where
  | format
  | responseFormat
  deriving DecidableEq

/-- Kind of exception raised by a remote call attempt: a TypeError (the
structural rejection of an unexpected keyword argument) or any other
failure (network, authentication, quota, malformed response), tagged with a
code so that distinct other failures stay distinct. -/
inductive ExcKind where
  | typeError
  | otherExc (code : Nat)
  deriving DecidableEq

/-- Outcome of one remote call attempt: a response object or an exception. -/
inductive CallOutcome (ρ : Type) where
  | ok (r : ρ)
  | exn (e : ExcKind)

/-- Shape of a response object as probed by _tts_once (src/tts_app.py lines
64-71).  `content` is `some b` when the attribute exists and is not None;
`read` is `some b` when a read method exists and returns `b`; `asBytes` is
`some b` when the object itself is a byte sequence with value `b`; `data`
is `some b` when a data attribute exists (getattr default applies
otherwise). -/
structure Resp where
  content : Option (List Nat)
  read : Option (List Nat)
  asBytes : Option (List Nat)
  data : Option (List Nat)
  deriving DecidableEq

/-- The normalization cascade of _tts_once (src/tts_app.py lines 64-71). -/
def normalizeResp (r : Resp) : List Nat :=
  match r.content with
  | some b => b
  | none =>
    match r.read with
    | some b => b
    | none =>
      match r.asBytes with
      | some b => b
      | none => r.data.getD []

/-- The control flow of _tts_once (src/tts_app.py lines 54-71): try the call
with the first parameter spelling; on a TypeError retry once with the
alternate spelling; any other exception of the first attempt, and any
exception of the second attempt, propagates. -/
def tts_once {ρ : Type} (call : ParamName → CallOutcome ρ) (norm : ρ → List Nat) :
    Except ExcKind (List Nat) :=
  match call ParamName.format with
  | CallOutcome.ok r => Except.ok (norm r)
  | CallOutcome.exn ExcKind.typeError =>
    match call ParamName.responseFormat with
    | CallOutcome.ok r => Except.ok (norm r)
    | CallOutcome.exn e => Except.error e
  | CallOutcome.exn (ExcKind.otherExc n) => Except.error (ExcKind.otherExc n)

/-- The sequence of call attempts _tts_once makes, in order. -/
def ttsAttempts {ρ : Type} (call : ParamName → CallOutcome ρ) : List ParamName :=
  match call ParamName.format with
  | CallOutcome.ok _ => [ParamName.format]
  | CallOutcome.exn ExcKind.typeError => [ParamName.format, ParamName.responseFormat]
  | CallOutcome.exn (ExcKind.otherExc _) => [ParamName.format]

/-- Python truthiness of an optional string: None and the empty string are
falsy. -/
def truthyO : Option (List Char) → Bool
  | none => false
  | some s => !s.isEmpty

/-- Result of get_client: either processing halts (st.error + st.stop, so no
client exists and no remote call can ever be issued), or a client holding
the resolved key is returned. -/
inductive ClientResult where
  | halted
  | client (key : List Char)
  deriving DecidableEq

/-- get_client (src/tts_app.py lines 46-52): resolve the key as
os.environ.get(K) or st.secrets.get(K) (Python `or`: the environment value
is used when truthy, otherwise the secrets value), then halt when the
resolved key is falsy. -/
def get_client (env secrets : Option (List Char)) : ClientResult :=
  match (if truthyO env then env else secrets) with
  | none => ClientResult.halted
  | some s => if s.isEmpty then ClientResult.halted else ClientResult.client s

/-- The user-visible failure conditions of the generate action. -/
inductive ErrMsg where
  | noAudio
  deriving DecidableEq

/-- Observable outcome of the generate action after synthesis returned:
which error caption is shown, and which bytes (if any) are persisted to the
output file. -/
structure GenResult where
  errMsg : Option ErrMsg
  written : Option (List Nat)
  deriving DecidableEq

/-- The post-synthesis branch of the generate action (src/tts_app.py lines
136-145): when the synthesized buffer is empty, report the no-audio error
and write nothing; otherwise write the buffer to the output file. -/
def genAction (audio : List Nat) : GenResult :=
  if audio.length = 0 then ⟨some ErrMsg.noAudio, none⟩ else ⟨none, some audio⟩

/-- Concrete oracle: returns zero bytes for the chunk "a" and one byte for
any other chunk. -/
def oracleZeroFirst : List Char → List Nat := fun c => if c = ['a'] then [] else [7]

/-- Concrete two-chunk list. -/
def chunksPair : List (List Char) := [['a'], ['b']]

/-- Concrete call oracle: the first parameter spelling raises TypeError, the
alternate spelling raises a non-TypeError failure. -/
def callBothFail : ParamName → CallOutcome Unit := fun p =>
  match p with
  | ParamName.format => CallOutcome.exn ExcKind.typeError
  | ParamName.responseFormat => CallOutcome.exn (ExcKind.otherExc 3)

/-- Trivial normalizer for the Unit response type. -/
def normUnit : Unit → List Nat := fun _ => []

/-- Concrete oracle that returns zero bytes for every chunk. -/
def emptyOracle : List Char → List Nat := fun _ => []

example : splitWS ['a', ' ', ' ', 'b', 'c', '\n'] = [['a'], ['b', 'c']] := by decide

example : chunk_text ['a', 'b', ' ', 'c', 'd', ' ', 'e'] 5 =
    [['a', 'b', ' ', 'c', 'd'], ['e']] := by decide

example : chunk_text ['a', 'a', 'a', ' ', 'b'] 2 = [['a', 'a', 'a'], ['b']] := by decide

example : chunk_text [' ', '\t', '\n'] 10 = [] := by decide

/-! ### Lemmas about splitWS and joinSpace -/

theorem splitWS_space_cons {c : Char} (xs : List Char) (h : pyIsSpace c = true) :
    splitWS (c :: xs) = splitWS xs := by
  cases xs with
  | nil => simp [splitWS, h]
  | cons d cs => simp [splitWS, h]

theorem splitWS_cons_ne_nil {c : Char} (xs : List Char) (h : pyIsSpace c = false) :
    splitWS (c :: xs) ≠ [] := by
  cases xs with
  | nil => simp [splitWS, h]
  | cons d cs =>
    by_cases hd : pyIsSpace d = true
    · simp [splitWS, h, hd]
    · simp only [Bool.not_eq_true] at hd
      simp only [splitWS, h, hd]
      cases splitWS (d :: cs) <;> simp

theorem splitWS_append_space (a b : List Char) :
    splitWS (a ++ ' ' :: b) = splitWS a ++ splitWS b := by
  induction a with
  | nil =>
    simp only [List.nil_append, splitWS]
    exact splitWS_space_cons b (by decide)
  | cons c cs ih =>
    by_cases hc : pyIsSpace c = true
    · rw [List.cons_append, splitWS_space_cons _ hc, splitWS_space_cons _ hc, ih]
    · simp only [Bool.not_eq_true] at hc
      cases cs with
      | nil =>
        simp [splitWS, hc, (by decide : pyIsSpace ' ' = true)]
      | cons d cs' =>
        by_cases hd : pyIsSpace d = true
        · have ih' : splitWS (cs' ++ ' ' :: b) = splitWS cs' ++ splitWS b := by
            have h1 := ih
            rwa [List.cons_append, splitWS_space_cons _ hd, splitWS_space_cons _ hd] at h1
          show splitWS (c :: d :: (cs' ++ ' ' :: b)) = splitWS (c :: d :: cs') ++ splitWS b
          simp [splitWS, hc, hd, ih']
        · simp only [Bool.not_eq_true] at hd
          have hne : splitWS (d :: cs') ≠ [] := splitWS_cons_ne_nil cs' hd
          obtain ⟨t, ts, hts⟩ : ∃ t ts, splitWS (d :: cs') = t :: ts := by
            cases h' : splitWS (d :: cs') with
            | nil => exact absurd h' hne
            | cons t ts => exact ⟨t, ts, rfl⟩
          have ihx : splitWS (d :: (cs' ++ ' ' :: b)) = t :: (ts ++ splitWS b) := by
            have h1 := ih
            rw [List.cons_append] at h1
            rw [h1, hts]
            rfl
          show splitWS (c :: d :: (cs' ++ ' ' :: b)) = splitWS (c :: d :: cs') ++ splitWS b
          simp [splitWS, hc, hd, ihx, hts]

theorem splitWS_noSpace (tok : List Char) (hne : tok ≠ []) (hns : noSpace tok) :
    splitWS tok = [tok] := by
  induction tok with
  | nil => exact absurd rfl hne
  | cons c cs ih =>
    have hc : pyIsSpace c = false := hns c (List.mem_cons_self c cs)
    cases cs with
    | nil => simp [splitWS, hc]
    | cons d cs' =>
      have hd : pyIsSpace d = false := hns d (by simp)
      have ih' : splitWS (d :: cs') = [d :: cs'] := by
        refine ih (by simp) ?_
        intro x hx
        exact hns x (List.mem_cons_of_mem c hx)
      simp [splitWS, hc, hd, ih']

theorem splitWS_allSpace (s : List Char) (h : ∀ c ∈ s, pyIsSpace c = true) :
    splitWS s = [] := by
  induction s with
  | nil => rfl
  | cons c cs ih =>
    rw [splitWS_space_cons cs (h c (List.mem_cons_self c cs))]
    exact ih (fun x hx => h x (List.mem_cons_of_mem c hx))

theorem splitWS_mem (s : List Char) :
    ∀ t ∈ splitWS s, t ≠ [] ∧ noSpace t := by
  induction s with
  | nil => intro t ht; simp [splitWS] at ht
  | cons c cs ih =>
    by_cases hc : pyIsSpace c = true
    · rw [splitWS_space_cons cs hc]; exact ih
    · simp only [Bool.not_eq_true] at hc
      cases cs with
      | nil =>
        intro t ht
        simp [splitWS, hc] at ht
        subst ht
        exact ⟨by simp, by intro x hx; simp at hx; subst hx; exact hc⟩
      | cons d cs' =>
        by_cases hd : pyIsSpace d = true
        · intro t ht
          simp only [splitWS, hc, Bool.false_eq_true, if_false, hd, if_true] at ht
          rcases List.mem_cons.mp ht with h1 | h2
          · subst h1
            exact ⟨by simp, by intro x hx; simp at hx; subst hx; exact hc⟩
          · have := splitWS_space_cons cs' hd
            exact ih t (by rw [this]; exact h2)
        · simp only [Bool.not_eq_true] at hd
          have hne : splitWS (d :: cs') ≠ [] := splitWS_cons_ne_nil cs' hd
          obtain ⟨u, us, hus⟩ : ∃ u us, splitWS (d :: cs') = u :: us := by
            cases h' : splitWS (d :: cs') with
            | nil => exact absurd h' hne
            | cons u us => exact ⟨u, us, rfl⟩
          intro t ht
          simp only [splitWS, hc, Bool.false_eq_true, if_false, hd, hus] at ht
          rcases List.mem_cons.mp ht with h1 | h2
          · subst h1
            have hu := ih u (by rw [hus]; exact List.mem_cons_self u us)
            refine ⟨by simp, ?_⟩
            intro x hx
            rcases List.mem_cons.mp hx with h3 | h4
            · subst h3; exact hc
            · exact hu.2 x h4
          · exact ih t (by rw [hus]; exact List.mem_cons_of_mem u h2)

theorem splitWS_joinSpace (l : List (List Char)) (h : ∀ t ∈ l, t ≠ [] ∧ noSpace t) :
    splitWS (joinSpace l) = l := by
  induction l with
  | nil => rfl
  | cons t l' ih =>
    cases l' with
    | nil =>
      have ht := h t (List.mem_cons_self t [])
      simpa [joinSpace] using splitWS_noSpace t ht.1 ht.2
    | cons u l'' =>
      have ht := h t (List.mem_cons_self t _)
      have hrest : splitWS (joinSpace (u :: l'')) = u :: l'' :=
        ih (fun x hx => h x (List.mem_cons_of_mem t hx))
      show splitWS (t ++ ' ' :: joinSpace (u :: l'')) = t :: u :: l''
      rw [splitWS_append_space, splitWS_noSpace t ht.1 ht.2, hrest]
      rfl

theorem splitWS_joinSpace_map (l : List (List Char)) :
    splitWS (joinSpace l) = (l.map splitWS).flatten := by
  induction l with
  | nil => rfl
  | cons t l' ih =>
    cases l' with
    | nil => simp [joinSpace]
    | cons u l'' =>
      show splitWS (t ++ ' ' :: joinSpace (u :: l'')) = _
      rw [splitWS_append_space, ih]
      simp

theorem joinSpace_append_length (buf : List (List Char)) (part : List Char) :
    (joinSpace (buf ++ [part])).length =
      if buf.isEmpty then part.length else (joinSpace buf).length + 1 + part.length := by
  induction buf with
  | nil => simp [joinSpace]
  | cons t l ih =>
    cases l with
    | nil => simp [joinSpace]; omega
    | cons u l' =>
      have hstep : joinSpace ((t :: u :: l') ++ [part]) =
          t ++ ' ' :: joinSpace ((u :: l') ++ [part]) := rfl
      have hJ : joinSpace (t :: u :: l') = t ++ ' ' :: joinSpace (u :: l') := rfl
      rw [hstep, hJ]
      simp only [List.isEmpty_cons, Bool.false_eq_true, if_false] at ih ⊢
      simp only [List.length_append, List.length_cons]
      omega

theorem chunkAux_flatten (maxLen : Nat) :
    ∀ (parts buf : List (List Char)) (curLen : Nat),
      (∀ t ∈ buf, t ≠ [] ∧ noSpace t) → (∀ t ∈ parts, t ≠ [] ∧ noSpace t) →
      ((chunkAux maxLen parts buf curLen).map splitWS).flatten = buf ++ parts := by
  intro parts
  induction parts with
  | nil =>
    intro buf curLen hbuf _
    cases buf with
    | nil => simp [chunkAux]
    | cons b bs =>
      simp only [chunkAux, List.isEmpty_cons, Bool.false_eq_true, if_false]
      simp [splitWS_joinSpace (b :: bs) hbuf]
  | cons part rest ih =>
    intro buf curLen hbuf hparts
    have hpart := hparts part (List.mem_cons_self part rest)
    have hrest : ∀ t ∈ rest, t ≠ [] ∧ noSpace t :=
      fun t ht => hparts t (List.mem_cons_of_mem part ht)
    simp only [chunkAux]
    by_cases hlt : maxLen < curLen + (part.length + (if buf.isEmpty then 0 else 1))
    · rw [if_pos hlt]
      cases buf with
      | nil =>
        simp only [List.isEmpty_nil, if_true]
        rw [ih [part] part.length (by simpa using hpart) hrest]
        simp
      | cons b bs =>
        simp only [List.isEmpty_cons, Bool.false_eq_true, if_false, List.map_cons,
          List.flatten_cons]
        rw [ih [part] part.length (by simpa using hpart) hrest,
          splitWS_joinSpace (b :: bs) hbuf]
        simp
    · rw [if_neg hlt]
      have hbuf' : ∀ t ∈ buf ++ [part], t ≠ [] ∧ noSpace t := by
        intro t ht
        rcases List.mem_append.mp ht with h1 | h2
        · exact hbuf t h1
        · simp at h2; subst h2; exact hpart
      rw [ih (buf ++ [part]) _ hbuf' hrest]
      simp

theorem chunkAux_bound (maxLen : Nat) (toks0 : List (List Char)) :
    ∀ (parts buf : List (List Char)) (curLen : Nat),
      (∀ t ∈ parts, t ∈ toks0) →
      curLen = (joinSpace buf).length →
      ((joinSpace buf).length ≤ maxLen ∨ ∃ t, buf = [t] ∧ maxLen < t.length ∧ t ∈ toks0) →
      ∀ c ∈ chunkAux maxLen parts buf curLen,
        c.length ≤ maxLen ∨ (maxLen < c.length ∧ c ∈ toks0) := by
  intro parts
  induction parts with
  | nil =>
    intro buf curLen _ _ hinv c hc
    cases buf with
    | nil => simp [chunkAux] at hc
    | cons b bs =>
      simp only [chunkAux, List.isEmpty_cons, Bool.false_eq_true, if_false,
        List.mem_singleton] at hc
      subst hc
      rcases hinv with h1 | ⟨t, hbt, h2, h3⟩
      · exact Or.inl h1
      · rw [hbt]
        exact Or.inr ⟨by simpa [joinSpace] using h2, by simpa [joinSpace] using h3⟩
  | cons part rest ih =>
    intro buf curLen hparts hcur hinv c hc
    have hpmem : part ∈ toks0 := hparts part (List.mem_cons_self part rest)
    have hrest : ∀ t ∈ rest, t ∈ toks0 := fun t ht => hparts t (List.mem_cons_of_mem part ht)
    have hsingle : (joinSpace [part]).length = part.length := rfl
    have hinv1 : part.length ≤ maxLen ∨ ∃ t, [part] = [t] ∧ maxLen < t.length ∧ t ∈ toks0 := by
      by_cases hp : part.length ≤ maxLen
      · exact Or.inl hp
      · exact Or.inr ⟨part, rfl, by omega, hpmem⟩
    simp only [chunkAux] at hc
    by_cases hlt : maxLen < curLen + (part.length + (if buf.isEmpty then 0 else 1))
    · rw [if_pos hlt] at hc
      cases buf with
      | nil =>
        simp only [List.isEmpty_nil, if_true] at hc
        exact ih [part] part.length hrest hsingle.symm (by simpa [joinSpace] using hinv1) c hc
      | cons b bs =>
        simp only [List.isEmpty_cons, Bool.false_eq_true, if_false, List.mem_cons] at hc
        rcases hc with h1 | h2
        · subst h1
          rcases hinv with h3 | ⟨t, hbt, h4, h5⟩
          · exact Or.inl h3
          · rw [hbt]
            exact Or.inr ⟨by simpa [joinSpace] using h4, by simpa [joinSpace] using h5⟩
        · exact ih [part] part.length hrest hsingle.symm (by simpa [joinSpace] using hinv1) c h2
    · rw [if_neg hlt] at hc
      have hlen : (joinSpace (buf ++ [part])).length =
          curLen + (part.length + (if buf.isEmpty then 0 else 1)) := by
        rw [joinSpace_append_length buf part]
        cases buf with
        | nil => simp [joinSpace] at hcur; simp [hcur]
        | cons b bs =>
          simp only [List.isEmpty_cons, Bool.false_eq_true, if_false]
          omega
      refine ih (buf ++ [part]) _ hrest hlen.symm (Or.inl ?_) c hc
      rw [hlen]
      omega

theorem splitWS_joinSpace_chunk (text : List Char) (maxLen : Nat) :
    splitWS (joinSpace (chunk_text text maxLen)) = splitWS text := by
  rw [splitWS_joinSpace_map]
  have h := chunkAux_flatten maxLen (splitWS text) [] 0 (by simp) (splitWS_mem text)
  simpa [chunk_text] using h

theorem foldl_append_bytes (f : List Char → List Nat) :
    ∀ (chunks : List (List Char)) (acc : List Nat),
      List.foldl (fun out c => out ++ f c) acc chunks = acc ++ (chunks.map f).flatten := by
  intro chunks
  induction chunks with
  | nil => intro acc; simp
  | cons c cs ih => intro acc; simp [List.foldl_cons, ih]

theorem foldl_trace_pair (f : List Char → List Nat) :
    ∀ (chunks : List (List Char)) (acc : List (List Char) × List Nat),
      List.foldl (fun acc c => (acc.1 ++ [c], acc.2 ++ f c)) acc chunks =
        (acc.1 ++ chunks, acc.2 ++ (chunks.map f).flatten) := by
  intro chunks
  induction chunks with
  | nil => intro acc; simp
  | cons c cs ih => intro acc; simp [List.foldl_cons, ih]

/-! ### Claim theorems -/

/-- C1: every chunk emitted by chunk_text(text, maxLen) has length at most
maxLen, except an oversized chunk, which is exactly one whitespace-delimited
token of the input whose own length exceeds maxLen, unsplit and with
nothing else in the chunk. -/
theorem chunk_text_length_bound (text : List Char) (maxLen : Nat) :
    ∀ c ∈ chunk_text text maxLen,
      c.length ≤ maxLen ∨ (maxLen < c.length ∧ c ∈ splitWS text) := by
  intro c hc
  exact chunkAux_bound maxLen (splitWS text) (splitWS text) [] 0
    (fun t ht => ht) rfl (Or.inl (by simp [joinSpace])) c hc

/-- Witness for C1 at the text "aaa b" with maxLen 2: the oversized chunk
"aaa" is exactly the oversized token of the input. -/
theorem chunk_text_length_bound_witness :
    ['a', 'a', 'a'] ∈ chunk_text ['a', 'a', 'a', ' ', 'b'] 2 ∧
      (['a', 'a', 'a'].length ≤ 2 ∨
        (2 < ['a', 'a', 'a'].length ∧
          ['a', 'a', 'a'] ∈ splitWS ['a', 'a', 'a', ' ', 'b'])) :=
  ⟨by decide, chunk_text_length_bound ['a', 'a', 'a', ' ', 'b'] 2 ['a', 'a', 'a'] (by decide)⟩

/-- C2: joining the chunks of chunk_text(text, maxLen) with single spaces
and splitting by whitespace yields exactly the token sequence of the
original input; no token is lost, duplicated, reordered or altered. -/
theorem chunk_text_tokens_preserved (text : List Char) (maxLen : Nat) :
    splitWS (joinSpace (chunk_text text maxLen)) = splitWS text :=
  splitWS_joinSpace_chunk text maxLen

/-- C7: chunking is stable under round-trip; re-chunking the single-space
rejoining of the chunks with the same positive maxLen reproduces exactly
the same chunk list. -/
theorem chunk_text_roundtrip_stable (text : List Char) (maxLen : Nat) (h : 0 < maxLen) :
    chunk_text (joinSpace (chunk_text text maxLen)) maxLen = chunk_text text maxLen := by
  show chunkAux maxLen (splitWS (joinSpace (chunk_text text maxLen))) [] 0 = _
  rw [splitWS_joinSpace_chunk]
  rfl

/-- Witness for C7 at the text "a b" with maxLen 1. -/
theorem chunk_text_roundtrip_stable_witness :
    0 < 1 ∧
      chunk_text (joinSpace (chunk_text ['a', ' ', 'b'] 1)) 1 = chunk_text ['a', ' ', 'b'] 1 :=
  ⟨by decide, chunk_text_roundtrip_stable ['a', ' ', 'b'] 1 (by decide)⟩

/-- C8: chunking an input that is empty or consists only of whitespace
characters yields the empty chunk sequence. -/
theorem chunk_text_whitespace_empty (text : List Char) (maxLen : Nat)
    (h : ∀ c ∈ text, pyIsSpace c = true) :
    chunk_text text maxLen = [] := by
  show chunkAux maxLen (splitWS text) [] 0 = []
  rw [splitWS_allSpace text h]
  rfl

/-- Witness for C8 at the whitespace-only text " \n\t" with the default
maximum. -/
theorem chunk_text_whitespace_empty_witness :
    (∀ c ∈ [' ', '\n', '\t'], pyIsSpace c = true) ∧
      chunk_text [' ', '\n', '\t'] MAX_CHARS_PER_CHUNK = [] :=
  ⟨by decide, chunk_text_whitespace_empty [' ', '\n', '\t'] MAX_CHARS_PER_CHUNK (by decide)⟩

/-- C3: synthesize_tts over N chunks invokes the per-chunk primitive exactly
N times, once per chunk in list order (the instrumented call trace is the
chunk list itself), and returns the byte-wise concatenation of the per-call
results in that order. -/
theorem synthesize_tts_calls_and_concat (f : List Char → List Nat) (chunks : List (List Char)) :
    (synthTrace f chunks).1 = chunks ∧
    (synthTrace f chunks).1.length = chunks.length ∧
    (synthTrace f chunks).2 = (chunks.map f).flatten ∧
    synthesize_tts f chunks = (chunks.map f).flatten := by
  have h1 : synthTrace f chunks = (chunks, (chunks.map f).flatten) := by
    show List.foldl _ (([] : List (List Char)), ([] : List Nat)) chunks = _
    rw [foldl_trace_pair f chunks (([] : List (List Char)), ([] : List Nat))]
    simp
  have h2 : synthesize_tts f chunks = (chunks.map f).flatten := by
    show List.foldl _ ([] : List Nat) chunks = _
    rw [foldl_append_bytes f chunks ([] : List Nat)]
    simp
  rw [h1, h2]
  exact ⟨rfl, rfl, rfl, rfl⟩

/-- C4: if the first attempt with the first encoding-parameter name raises a
TypeError (a structural rejection), exactly one retry is made with the
alternate parameter name, and the retry's outcome (success or any failure)
is the reported result; a non-TypeError failure of the first attempt is not
retried and propagates; a successful first attempt makes a single call. -/
theorem tts_once_retry_policy {ρ : Type} (call : ParamName → CallOutcome ρ)
    (norm : ρ → List Nat) :
    (call ParamName.format = CallOutcome.exn ExcKind.typeError →
      ttsAttempts call = [ParamName.format, ParamName.responseFormat] ∧
      (∀ r, call ParamName.responseFormat = CallOutcome.ok r →
        tts_once call norm = Except.ok (norm r)) ∧
      (∀ e, call ParamName.responseFormat = CallOutcome.exn e →
        tts_once call norm = Except.error e)) ∧
    (∀ n, call ParamName.format = CallOutcome.exn (ExcKind.otherExc n) →
      ttsAttempts call = [ParamName.format] ∧
      tts_once call norm = Except.error (ExcKind.otherExc n)) ∧
    (∀ r, call ParamName.format = CallOutcome.ok r →
      ttsAttempts call = [ParamName.format] ∧
      tts_once call norm = Except.ok (norm r)) := by
  refine ⟨?_, ?_, ?_⟩
  · intro h
    refine ⟨by simp [ttsAttempts, h], ?_, ?_⟩
    · intro r hr
      simp [tts_once, h, hr]
    · intro e he
      simp [tts_once, h, he]
  · intro n h
    exact ⟨by simp [ttsAttempts, h], by simp [tts_once, h]⟩
  · intro r h
    exact ⟨by simp [ttsAttempts, h], by simp [tts_once, h]⟩

/-- Witness for C4: a call whose first spelling raises TypeError and whose
second spelling raises a non-TypeError failure makes exactly the two
attempts and reports the second failure. -/
theorem tts_once_retry_policy_witness :
    ttsAttempts callBothFail = [ParamName.format, ParamName.responseFormat] ∧
    tts_once callBothFail normUnit = Except.error (ExcKind.otherExc 3) :=
  ⟨((tts_once_retry_policy callBothFail normUnit).1 rfl).1,
    ((tts_once_retry_policy callBothFail normUnit).1 rfl).2.2 (ExcKind.otherExc 3) rfl⟩

/-- C5 counterexample: with two chunks where the remote call for the first
chunk returns zero bytes and the call for the second returns one byte, a
remote synthesis call returned zero bytes, yet the generate action reports
no error and writes the (non-empty) concatenation to the output file —
refuting the claim that any zero-byte call leads to a reported no-audio
condition with no file written. -/
theorem gen_zero_byte_call_counterexample :
    oracleZeroFirst ['a'] = [] ∧
    (genAction (synthesize_tts oracleZeroFirst chunksPair)).written = some [7] ∧
    (genAction (synthesize_tts oracleZeroFirst chunksPair)).errMsg = none := by
  decide

/-- C5 (amended): if the synthesized result is empty (zero total bytes; in
particular when every remote call returns zero bytes), the no-audio failure
is reported and no output file is written; the output file is written only
with a confirmed non-empty result. -/
theorem gen_no_audio_empty_total (f : List Char → List Nat) (chunks : List (List Char)) :
    (synthesize_tts f chunks = [] →
      (genAction (synthesize_tts f chunks)).errMsg = some ErrMsg.noAudio ∧
      (genAction (synthesize_tts f chunks)).written = none) ∧
    (∀ b, (genAction (synthesize_tts f chunks)).written = some b →
      b = synthesize_tts f chunks ∧ synthesize_tts f chunks ≠ []) := by
  constructor
  · intro h
    rw [h]
    exact ⟨rfl, rfl⟩
  · intro b hb
    by_cases h : (synthesize_tts f chunks).length = 0
    · rw [genAction, if_pos h] at hb
      cases hb
    · rw [genAction, if_neg h] at hb
      have hb' : b = synthesize_tts f chunks := by
        cases hb
        rfl
      refine ⟨hb', ?_⟩
      intro he
      rw [he] at h
      exact h rfl

/-- Witness for C5 (amended): an oracle returning zero bytes for the single
chunk leads to the reported no-audio condition and nothing written. -/
theorem gen_no_audio_empty_total_witness :
    synthesize_tts emptyOracle [['a']] = [] ∧
    (genAction (synthesize_tts emptyOracle [['a']])).errMsg = some ErrMsg.noAudio ∧
    (genAction (synthesize_tts emptyOracle [['a']])).written = none :=
  ⟨rfl, ((gen_no_audio_empty_total emptyOracle [['a']]).1 rfl).1,
    ((gen_no_audio_empty_total emptyOracle [['a']]).1 rfl).2⟩

/-- C6 counterexample: with the environment variable present but equal to
the empty string and a non-empty secrets value present, both sources are
present, yet get_client resolves to the secrets value and proceeds —
whereas unconditional environment precedence would resolve the key to the
empty environment value and halt.  So precedence does not hold for an
empty environment value. -/
theorem get_client_precedence_counterexample :
    get_client (some []) (some ['x']) = ClientResult.client ['x'] ∧
    ClientResult.client ['x'] ≠ ClientResult.halted ∧
    (['x'] : List Char) ≠ ([] : List Char) := by
  decide

/-- C6 (amended): the key is read from the environment or the secrets
facility; the environment takes precedence when both are present and the
environment value is non-empty; when the environment value is missing or
empty, a non-empty secrets value is used; when both sources are missing or
empty, processing halts with the blocking missing-credential error before
any client exists (so before any remote call). -/
theorem get_client_resolution (env secrets : Option (List Char)) :
    (∀ e, env = some e → e ≠ [] → get_client env secrets = ClientResult.client e) ∧
    ((env = none ∨ env = some []) → ∀ s, secrets = some s → s ≠ [] →
      get_client env secrets = ClientResult.client s) ∧
    ((env = none ∨ env = some []) → (secrets = none ∨ secrets = some []) →
      get_client env secrets = ClientResult.halted) := by
  refine ⟨?_, ?_, ?_⟩
  · intro e he hne
    subst he
    cases e with
    | nil => exact absurd rfl hne
    | cons c cs => simp [get_client, truthyO]
  · intro henv s hs hne
    subst hs
    cases s with
    | nil => exact absurd rfl hne
    | cons c cs =>
      rcases henv with h | h <;> subst h <;> simp [get_client, truthyO]
  · intro henv hsec
    rcases henv with h | h <;> rcases hsec with h' | h' <;> subst h <;> subst h' <;>
      simp [get_client, truthyO]

/-- Witness for C6 (amended): a non-empty environment value wins over a
non-empty secrets value, and two empty sources halt. -/
theorem get_client_resolution_witness :
    get_client (some ['k']) (some ['s']) = ClientResult.client ['k'] ∧
    get_client (some []) none = ClientResult.halted :=
  ⟨(get_client_resolution (some ['k']) (some ['s'])).1 ['k'] rfl (by decide),
    (get_client_resolution (some []) none).2.2 (Or.inr rfl) (Or.inl rfl)⟩

/-- C9: an environment credential equal to the empty string is treated as
absent — get_client behaves exactly as if the environment variable were
unset, falling through to the secrets facility; if both sources are falsy
(missing or empty) processing halts with the missing-credential error; and
environment precedence holds for every non-empty environment value. -/
theorem get_client_empty_env_ignored :
    (∀ secrets, get_client (some []) secrets = get_client none secrets) ∧
    (∀ env secrets, truthyO env = false → truthyO secrets = false →
      get_client env secrets = ClientResult.halted) ∧
    (∀ (e : List Char) secrets, e ≠ [] → get_client (some e) secrets = ClientResult.client e) := by
  refine ⟨?_, ?_, ?_⟩
  · intro secrets
    simp [get_client, truthyO]
  · intro env secrets henv hsec
    rw [get_client, if_neg (by simp [henv])]
    cases secrets with
    | none => rfl
    | some s =>
      cases s with
      | nil => simp
      | cons c cs => simp [truthyO] at hsec
  · intro e secrets hne
    cases e with
    | nil => exact absurd rfl hne
    | cons c cs => simp [get_client, truthyO]

/-- Witness for C9: empty environment value falls through to the secrets
value; both sources empty halts; non-empty environment value wins. -/
theorem get_client_empty_env_ignored_witness :
    get_client (some []) (some ['s']) = get_client none (some ['s']) ∧
    get_client (some []) (some []) = ClientResult.halted ∧
    get_client (some ['k']) (some ['s']) = ClientResult.client ['k'] :=
  ⟨(get_client_empty_env_ignored).1 (some ['s']),
    (get_client_empty_env_ignored).2.1 (some []) (some []) rfl rfl,
    (get_client_empty_env_ignored).2.2 ['k'] (some ['s']) (by decide)⟩

/-- C10: the response normalization of _tts_once is a total function with
the preference order content, read, byte value, data attribute; a response
exposing none of these shapes yields the empty byte sequence rather than a
failure. -/
theorem normalizeResp_total (r : Resp) :
    (∀ b, r.content = some b → normalizeResp r = b) ∧
    (r.content = none → ∀ b, r.read = some b → normalizeResp r = b) ∧
    (r.content = none → r.read = none → ∀ b, r.asBytes = some b → normalizeResp r = b) ∧
    (r.content = none → r.read = none → r.asBytes = none → ∀ b, r.data = some b →
      normalizeResp r = b) ∧
    (r.content = none → r.read = none → r.asBytes = none → r.data = none →
      normalizeResp r = []) := by
  refine ⟨?_, ?_, ?_, ?_, ?_⟩
  · intro b hb
    simp [normalizeResp, hb]
  · intro h1 b hb
    simp [normalizeResp, h1, hb]
  · intro h1 h2 b hb
    simp [normalizeResp, h1, h2, hb]
  · intro h1 h2 h3 b hb
    simp [normalizeResp, h1, h2, h3, hb]
  · intro h1 h2 h3 h4
    simp [normalizeResp, h1, h2, h3, h4]

/-- Witness for C10: a response exposing none of the four shapes normalizes
to the empty byte sequence. -/
theorem normalizeResp_total_witness :
    normalizeResp ⟨none, none, none, none⟩ = [] :=
  (normalizeResp_total ⟨none, none, none, none⟩).2.2.2.2 rfl rfl rfl rfl
